import Mathlib

/-!
Verification of the hours/price feature extractors of
`msk_food_investment_research` (`src/parser.py`).

The Python code is shallowly embedded: strings are modelled as `List Char`
(inputs enter through `String`, missing values through `Option`), Python
floats as `ℚ` (every quantity produced by the code is an exact sum of
`m / 60`-style dyadic-free rationals, and every comparison made by the code
is far from any float-rounding tie, so the rational model decides each
comparison exactly as the float code does), regexes are hand-compiled to the
equivalent anchored scanners, and `pandas.Series` records become a fixed
structure.  Python's `str.lower` is reproduced on the Latin and Cyrillic
ranges, the only alphabets the parser's fixed keyword table touches.
-/

namespace MskFood

/-- Python `str.lower`, restricted to ASCII Latin and Cyrillic
(`А`..`Я` = 1040..1071 maps to `а`..`я`, `Ё` = 1025 to `ё` = 1105). -/
def toLowerChar (c : Char) : Char :=
  if 65 ≤ c.toNat ∧ c.toNat ≤ 90 then Char.ofNat (c.toNat + 32)
  else if 1040 ≤ c.toNat ∧ c.toNat ≤ 1071 then Char.ofNat (c.toNat + 32)
  else if c.toNat = 1025 then Char.ofNat 1105
  else c

/-- `str.replace("–", "-")` applied characterwise (both arguments are single
characters, so the substring replace is a character map). -/
def dashFix (c : Char) : Char := if c = '–' then '-' else c

/-- Python regex `\d`. -/
def isDigitChar (c : Char) : Bool := decide (48 ≤ c.toNat ∧ c.toNat ≤ 57)

/-- Numeric value of a digit character. -/
def digitVal (c : Char) : Nat := c.toNat - 48

/-- The whitespace recognised by `str.strip` / regex `\s` on the inputs in
scope (ASCII whitespace). -/
def isSpaceChar (c : Char) : Bool :=
  c = ' ' || c = '\t' || c = '\n' || c = '\r' ||
  c = Char.ofNat 11 || c = Char.ofNat 12

/-- Python regex character class `[а-я,\-]` (`а`..`я` = 1072..1103). -/
def isDayChar (c : Char) : Bool :=
  decide (1072 ≤ c.toNat ∧ c.toNat ≤ 1103) || c = ',' || c = '-'

/-- Python `pat in s` substring test. -/
def containsSub (pat : List Char) : List Char → Bool
  | [] => pat.isEmpty
  | c :: cs => pat.isPrefixOf (c :: cs) || containsSub pat cs

/-- Python `str.strip()`. -/
def strip (l : List Char) : List Char :=
  ((l.dropWhile isSpaceChar).reverse.dropWhile isSpaceChar).reverse

/-- Python `str.split(sep)` for a one-character separator. -/
def splitOnChar (sep : Char) : List Char → List (List Char)
  | [] => [[]]
  | c :: cs =>
    if c = sep then [] :: splitOnChar sep cs
    else
      match splitOnChar sep cs with
      | [] => [[c]]
      | h :: t => (c :: h) :: t

/-- Worker for `splitCommaWs`: the flag records that the scanner sits right
after a comma, where `\s*` consumes the whitespace run. -/
def splitCommaWsAux : List Char → Bool → List (List Char)
  | [], _ => [[]]
  | c :: cs, skip =>
    if skip && isSpaceChar c then splitCommaWsAux cs true
    else if c = ',' then [] :: splitCommaWsAux cs true
    else
      match splitCommaWsAux cs false with
      | [] => [[c]]
      | h :: t => (c :: h) :: t

/-- Python `re.split(r",\s*", s)`: split at each comma, discarding the
whitespace run that follows the comma. -/
def splitCommaWs (l : List Char) : List (List Char) := splitCommaWsAux l false

/-- Worker for `findAllNat`: the second argument carries the value of the
digit run currently being read, if any. -/
def findAllNatAux : List Char → Option Nat → List Nat
  | [], none => []
  | [], some n => [n]
  | c :: cs, none =>
    if isDigitChar c then findAllNatAux cs (some (digitVal c))
    else findAllNatAux cs none
  | c :: cs, some n =>
    if isDigitChar c then findAllNatAux cs (some (10 * n + digitVal c))
    else n :: findAllNatAux cs none

/-- Python `re.findall(r"\d+", s)` followed by `int`: the values of the
maximal digit runs, in order. -/
def findAllNat (l : List Char) : List Nat := findAllNatAux l none

/-!
Rational arithmetic layer.  The standard `Rat` operations are
`@[irreducible]`, which blocks kernel evaluation of concrete inputs, so the
embedding computes through the reducible smart constructor `mkRat` instead.
Each operation below is proved equal to the standard one (`qadd_eq` etc.),
so every theorem can be read over ordinary `ℚ` arithmetic.
-/

/-- Rational addition through `mkRat`; equals `a + b` (`qadd_eq`). -/
def qadd (a b : ℚ) : ℚ := mkRat (a.num * b.den + b.num * a.den) (a.den * b.den)

/-- Rational subtraction through `mkRat`; equals `a - b` (`qsub_eq`). -/
def qsub (a b : ℚ) : ℚ := mkRat (a.num * b.den - b.num * a.den) (a.den * b.den)

/-- Rational multiplication through `mkRat`; equals `a * b` (`qmul_eq`). -/
def qmul (a b : ℚ) : ℚ := mkRat (a.num * b.num) (a.den * b.den)

/-- Boolean `a ≤ b` on `ℚ` by cross multiplication (`qleb_iff`). -/
def qleb (a b : ℚ) : Bool := decide (a.num * (b.den : Int) ≤ b.num * (a.den : Int))

/-- Boolean `a < b` on `ℚ` by cross multiplication (`qltb_iff`). -/
def qltb (a b : ℚ) : Bool := decide (a.num * (b.den : Int) < b.num * (a.den : Int))

/-- `max` on `ℚ` through `qleb`; equals `max a b` (`qmax_eq`). -/
def qmax (a b : ℚ) : ℚ := if qleb a b then b else a

/-- `min` on `ℚ` through `qleb`; equals `min a b` (`qmin_eq`). -/
def qmin (a b : ℚ) : ℚ := if qleb a b then a else b

/-- The Python expression `h + m / 60` (src/parser.py lines 50-51) as the
exact rational `(60 * h + m) / 60`; see `timeVal_eq`. -/
def timeVal (h m : Nat) : ℚ := mkRat (60 * h + m) 60

/-- Anchored match of `\d{1,2}:` (greedy, with the regex engine's
backtracking compiled away: two digits are taken exactly when a `:` follows
them).  Returns the hour value and the remainder after the colon. -/
def matchHHColon : List Char → Option (Nat × List Char)
  | a :: b :: c :: r =>
    if isDigitChar a then
      if isDigitChar b then
        if c = ':' then some (10 * digitVal a + digitVal b, r) else none
      else if b = ':' then some (digitVal a, c :: r) else none
    else none
  | [a, b] =>
    if isDigitChar a ∧ b = ':' then some (digitVal a, []) else none
  | _ => none

/-- Anchored match of `\d{2}`. -/
def matchMM : List Char → Option (Nat × List Char)
  | a :: b :: r =>
    if isDigitChar a ∧ isDigitChar b then
      some (10 * digitVal a + digitVal b, r)
    else none
  | _ => none

/-- Anchored match of `(\d{1,2}):(\d{2})-(\d{1,2}):(\d{2})` (the prefix match
performed by `re.match`): the four captured integers and the unconsumed
remainder. -/
def matchTimeAt (s : List Char) : Option ((Nat × Nat × Nat × Nat) × List Char) :=
  match matchHHColon s with
  | none => none
  | some (h1, s1) =>
    match matchMM s1 with
    | none => none
    | some (m1, s2) =>
      match s2 with
      | '-' :: s3 =>
        match matchHHColon s3 with
        | none => none
        | some (h2, s4) =>
          match matchMM s4 with
          | none => none
          | some (m2, s5) => some ((h1, m1, h2, m2), s5)
      | _ => none

/-- `re.search(r"\d{1,2}:\d{2}-\d{1,2}:\d{2}", s)`: the leftmost matching
substring, if any. -/
def searchTime : List Char → Option (List Char)
  | [] => none
  | c :: cs =>
    match matchTimeAt (c :: cs) with
    | some (_, rest) =>
      some ((c :: cs).take ((c :: cs).length - rest.length))
    | none => searchTime cs

/-- `parse_time_range` (src/parser.py lines 15-56): normalize the long dash,
match the time-range shape at the start, convert to fractional hours, and add
24 to the end on midnight rollover. -/
def parse_time_range (time_range : List Char) : Option (ℚ × ℚ) :=
  match matchTimeAt (time_range.map dashFix) with
  | none => none
  | some ((h1, m1, h2, m2), _) =>
    if qleb (timeVal h2 m2) (timeVal h1 m1) then
      some (timeVal h1 m1, qadd (timeVal h2 m2) 24)
    else
      some (timeVal h1 m1, timeVal h2 m2)

/-- Constant `DAY_START` (src/parser.py line 10). -/
def DAY_START : ℚ := 6

/-- Constant `DAY_END` (src/parser.py line 11). -/
def DAY_END : ℚ := 22

/-- `intersects_day` (src/parser.py lines 59-74):
`max(start, DAY_START) < min(end, DAY_END)`. -/
def intersects_day (start stop : ℚ) : Bool :=
  qltb (qmax start DAY_START) (qmin stop DAY_END)

/-- `intersects_night` (src/parser.py lines 77-101): the loop over
`[(22, 24), (0, 6)]` with early return, written as the disjunction it
computes. -/
def intersects_night (start stop : ℚ) : Bool :=
  qltb (qmax start 22) (qmin stop 24) || qltb (qmax start 0) (qmin stop 6)

/-- Constant `WEEK_DAYS` (src/parser.py line 6). -/
def WEEK_DAYS : List (List Char) := ["пн", "вт", "ср", "чт", "пт"].map String.toList

/-- Constant `WEEKEND_DAYS` (src/parser.py line 7). -/
def WEEKEND_DAYS : List (List Char) := ["сб", "вс"].map String.toList

/-- Constant `ALL_DAYS = WEEK_DAYS | WEEKEND_DAYS` (src/parser.py line 8);
only membership is ever used, so the union is modelled as concatenation. -/
def ALL_DAYS : List (List Char) := WEEK_DAYS ++ WEEKEND_DAYS

/-- The ordered week `order` local to `expand_days` (src/parser.py line 127). -/
def order : List (List Char) :=
  ["пн", "вт", "ср", "чт", "пт", "сб", "вс"].map String.toList

/-- Anchored match of one day token: the alternation
`(пн|вт|ср|чт|пт|сб|вс)` (all alternatives are two distinct characters). -/
def dayTokenAt (s : List Char) : Option (List Char × List Char) :=
  match s with
  | a :: b :: r => if [a, b] ∈ order then some ([a, b], r) else none
  | _ => none

/-- Anchored match of the range regex
`(пн|вт|ср|чт|пт|сб|вс)-(пн|вт|ср|чт|пт|сб|вс)` used by `expand_days`
(`re.match`, so trailing characters are ignored). -/
def matchDayRange (s : List Char) : Option (List Char × List Char) :=
  match dayTokenAt s with
  | some (d1, r1) =>
    match r1 with
    | '-' :: r2 =>
      match dayTokenAt r2 with
      | some (d2, _) => some (d1, d2)
      | none => none
    | _ => none
  | none => none

/-- `expand_days` (src/parser.py lines 104-144).  The Python `set` is
modelled as a duplicate-free list: the slice path cannot repeat a day, and
the enumeration path inserts only absent days.  `order[i1:i2+1]` is
`(order.drop i1).take (i2 + 1 - i1)` — empty when `i1 > i2`, exactly as the
Python slice. -/
def expand_days (days_part : List Char) : List (List Char) :=
  match matchDayRange (days_part.map toLowerChar) with
  | some (d1, d2) =>
    (order.drop (order.indexOf d1)).take (order.indexOf d2 + 1 - order.indexOf d1)
  | none =>
    (splitCommaWs (days_part.map toLowerChar)).foldl
      (fun acc d => if d ∈ ALL_DAYS ∧ d ∉ acc then acc ++ [d] else acc) []

/-- The fixed-shape record produced by `hoursParser` (the `pandas.Series`
with these seven named fields). -/
structure HoursFeatureRecord where
  is_24_7 : Bool
  is_night : Bool
  is_day : Bool
  on_week : Bool
  on_weekend : Bool
  hours_on_week : ℚ
  hours_on_weekend : ℚ
deriving DecidableEq, Repr

/-- `str(hours_str).lower().replace("–", "-")` (src/parser.py line 215). -/
def normalize (s : String) : List Char :=
  (s.toList.map toLowerChar).map dashFix

/-- The `for d in days` loop body of the segmented path
(src/parser.py lines 304-310), iterated over the expanded day set. -/
def applyDays (hours : ℚ) : List (List Char) → HoursFeatureRecord → HoursFeatureRecord
  | [], r => r
  | d :: ds, r =>
    applyDays hours ds
      (if d ∈ WEEK_DAYS then
        { r with on_week := true, hours_on_week := qadd r.hours_on_week hours }
      else if d ∈ WEEKEND_DAYS then
        { r with on_weekend := true, hours_on_weekend := qadd r.hours_on_weekend hours }
      else r)

/-- Anchored match of the segment regex
`([а-я,\-]+)\s+(\d{1,2}:\d{2}-\d{1,2}:\d{2})` (src/parser.py lines 280-283):
the two captured groups.  The three character classes are pairwise disjoint,
so the regex engine's greedy matching needs no backtracking here. -/
def matchSegment (seg : List Char) : Option (List Char × List Char) :=
  if (seg.takeWhile isDayChar).isEmpty then none
  else if (((seg.dropWhile isDayChar).takeWhile isSpaceChar)).isEmpty then none
  else
    match matchTimeAt ((seg.dropWhile isDayChar).dropWhile isSpaceChar) with
    | some (_, rest) =>
      some (seg.takeWhile isDayChar,
        ((seg.dropWhile isDayChar).dropWhile isSpaceChar).take
          (((seg.dropWhile isDayChar).dropWhile isSpaceChar).length - rest.length))
    | none => none

/-- One iteration of the segment loop (src/parser.py lines 277-310): strip
the segment, match the `<days> <time>` shape, expand the days, parse the
time, and accumulate flags and hour totals (unmatched segments are
skipped). -/
def processSegment (r : HoursFeatureRecord) (segment : List Char) : HoursFeatureRecord :=
  match matchSegment (strip segment) with
  | none => r
  | some (days_part, time_part) =>
    match parse_time_range time_part with
    | none => r
    | some (s, e) =>
      applyDays (qsub e s) (expand_days days_part)
        { r with is_day := r.is_day || intersects_day s e,
                 is_night := r.is_night || intersects_night s e }

/-- The segment loop folded over the `;`-split segments. -/
def segLoop : List (List Char) → HoursFeatureRecord → HoursFeatureRecord
  | [], r => r
  | seg :: rest, r => segLoop rest (processSegment r seg)

/-- The segmented fallback path of `hoursParser`
(src/parser.py lines 274-320), starting from the all-false/zero record
initialised at lines 217-223. -/
def segmented (text : List Char) : HoursFeatureRecord :=
  segLoop (splitOnChar ';' text) ⟨false, false, false, false, false, 0, 0⟩

/-- The `ежедневно`-prefixed time-range lookup shared by the near-24h check
(src/parser.py lines 232-237) and the "daily + time" path (lines 253-258):
`text.startswith("ежедневно")`, `re.search` for a time token, and
`parse_time_range` on the matched group; `none` when any step fails. -/
def dailyMatch (text : List Char) : Option (ℚ × ℚ) :=
  if ("ежедневно".toList).isPrefixOf text then
    match searchTime text with
    | some m => parse_time_range m
    | none => none
  else none

/-- The `is_24_7` decision (src/parser.py lines 226-239): the two keyword
conjunctions, or an `ежедневно`-prefixed time token with `start == 0` and
`end - start >= 23.99`. -/
def is_24_7_check (text : List Char) : Bool :=
  ((containsSub ("круглосуточно".toList) text && containsSub ("ежедневно".toList) text)
    || (containsSub ("круглосуточно".toList) text && containsSub ("пн-вс".toList) text))
  || (match dailyMatch text with
      | some (st, en) => decide (st = 0) && qleb (mkRat 2399 100) (qsub en st)
      | none => false)

/-- `hoursParser` (src/parser.py lines 147-320). -/
def hoursParser : Option String → HoursFeatureRecord
  | none => ⟨false, false, false, false, false, 0, 0⟩
  | some s =>
    if is_24_7_check (normalize s) then
      ⟨true, true, true, true, true, qmul 24 5, qmul 24 2⟩
    else
      match dailyMatch (normalize s) with
      | some (st, en) =>
        ⟨false, intersects_night st en, intersects_day st en, true, true,
          qmul (qsub en st) 5, qmul (qsub en st) 2⟩
      | none => segmented (normalize s)

/-- `parse_middle_beer_cup` (src/parser.py lines 323-365).  `np.nan`
("no value") is modelled as `none`; `np.median` of the first two numbers is
their arithmetic mean. -/
def parse_middle_beer_cup (value : Option String) : Option ℚ :=
  match value with
  | none => none
  | some v =>
    if containsSub ("цена бокала пива".toList) (strip (v.toList.map toLowerChar)) then
      match findAllNat (strip (v.toList.map toLowerChar)) with
      | [] => none
      | [n] => some (n : ℚ)
      | n :: m :: _ => some (mkRat (n + m) 2)
    else none

/-! Bridge lemmas: the reducible rational operations agree with the
standard ones, so all statements below read over ordinary `ℚ`. -/

theorem den_cast_ne_zero (a : ℚ) : ((a.den : ℚ)) ≠ 0 :=
  Nat.cast_ne_zero.mpr a.den_nz

theorem qadd_eq (a b : ℚ) : qadd a b = a + b := by
  rw [qadd, Rat.mkRat_eq_div]
  conv_rhs => rw [← Rat.num_div_den a, ← Rat.num_div_den b]
  rw [div_add_div _ _ (den_cast_ne_zero a) (den_cast_ne_zero b)]
  push_cast
  ring_nf

theorem qsub_eq (a b : ℚ) : qsub a b = a - b := by
  rw [qsub, Rat.mkRat_eq_div]
  conv_rhs => rw [← Rat.num_div_den a, ← Rat.num_div_den b]
  rw [div_sub_div _ _ (den_cast_ne_zero a) (den_cast_ne_zero b)]
  push_cast
  ring_nf

theorem qmul_eq (a b : ℚ) : qmul a b = a * b := by
  rw [qmul, Rat.mkRat_eq_div]
  conv_rhs => rw [← Rat.num_div_den a, ← Rat.num_div_den b]
  rw [div_mul_div_comm]
  push_cast
  ring_nf

theorem qleb_iff (a b : ℚ) : qleb a b = true ↔ a ≤ b := by
  rw [qleb, decide_eq_true_eq, Rat.le_def]

theorem qltb_iff (a b : ℚ) : qltb a b = true ↔ a < b := by
  rw [qltb, decide_eq_true_eq, Rat.lt_def]

theorem qmax_eq (a b : ℚ) : qmax a b = max a b := by
  rw [qmax, max_def]
  by_cases h : a ≤ b
  · rw [if_pos ((qleb_iff a b).mpr h), if_pos h]
  · rw [if_neg (fun hc => h ((qleb_iff a b).mp hc)), if_neg h]

theorem qmin_eq (a b : ℚ) : qmin a b = min a b := by
  rw [qmin, min_def]
  by_cases h : a ≤ b
  · rw [if_pos ((qleb_iff a b).mpr h), if_pos h]
  · rw [if_neg (fun hc => h ((qleb_iff a b).mp hc)), if_neg h]

theorem timeVal_eq (h m : Nat) : timeVal h m = (h : ℚ) + (m : ℚ) / 60 := by
  rw [timeVal, Rat.mkRat_eq_div]
  push_cast
  field_simp
  ring

/-! Structural facts about the embedded code. -/

theorem timeVal_nonneg (h m : Nat) : (0 : ℚ) ≤ timeVal h m := by
  rw [timeVal_eq]
  positivity

theorem parse_time_range_start_lt (s : List Char) (st en : ℚ)
    (hp : parse_time_range s = some (st, en)) (h24 : st < 24) : st < en := by
  unfold parse_time_range at hp
  split at hp
  · exact absurd hp (by simp)
  · rename_i h1 m1 h2 m2 rest heq
    split at hp
    · rename_i hle
      rw [Option.some.injEq, Prod.mk.injEq] at hp
      obtain ⟨hst, hen⟩ := hp
      subst hst
      subst hen
      rw [qadd_eq]
      have := timeVal_nonneg h2 m2
      linarith
    · rename_i hle
      rw [Option.some.injEq, Prod.mk.injEq] at hp
      obtain ⟨hst, hen⟩ := hp
      subst hst
      subst hen
      have : ¬ timeVal h2 m2 ≤ timeVal h1 m1 := fun hc => hle ((qleb_iff _ _).mpr hc)
      linarith [lt_of_not_le this]

theorem parse_middle_beer_cup_some (v : String) :
    parse_middle_beer_cup (some v) =
      (if containsSub ("цена бокала пива".toList)
          (strip (v.toList.map toLowerChar)) then
        match findAllNat (strip (v.toList.map toLowerChar)) with
        | [] => none
        | [n] => some (n : ℚ)
        | n :: m :: _ => some (mkRat (n + m) 2)
      else none) := rfl

theorem infix_of_take (l : List Char) (k : Nat) : l.take k <:+: l :=
  ⟨[], l.drop k, by simp [List.take_append_drop]⟩

theorem infix_cons_of (c : Char) (m l : List Char) (h : m <:+: l) :
    m <:+: c :: l := by
  obtain ⟨s, t, hst⟩ := h
  exact ⟨c :: s, t, by rw [← hst]; simp⟩

theorem searchTime_isInfix : ∀ l m : List Char, searchTime l = some m → m <:+: l
  | [], m, h => by simp [searchTime] at h
  | c :: cs, m, h => by
    unfold searchTime at h
    split at h
    · rw [Option.some.injEq] at h
      rw [← h]
      exact infix_of_take (c :: cs) _
    · exact infix_cons_of c m cs (searchTime_isInfix cs m h)

theorem splitOnChar_shape (sep : Char) :
    ∀ l : List Char, ∃ h t, splitOnChar sep l = h :: t ∧ h <+: l ∧ ∀ p ∈ t, p <:+: l
  | [] => ⟨[], [], rfl, ⟨[], rfl⟩, by simp⟩
  | c :: cs => by
    obtain ⟨h, t, hsplit, ⟨r, hr⟩, htail⟩ := splitOnChar_shape sep cs
    by_cases hc : c = sep
    · refine ⟨[], splitOnChar sep cs, ?_, ⟨c :: cs, rfl⟩, ?_⟩
      · rw [splitOnChar, if_pos hc]
      · intro p hp
        rw [hsplit] at hp
        rcases List.mem_cons.mp hp with rfl | hmem
        · exact infix_cons_of c p cs ⟨[], r, by simp [hr]⟩
        · exact infix_cons_of c p cs (htail p hmem)
    · refine ⟨c :: h, t, ?_, ⟨r, by rw [List.cons_append, hr]⟩, ?_⟩
      · rw [splitOnChar, if_neg hc, hsplit]
      · intro p hp
        exact infix_cons_of c p cs (htail p hp)

theorem splitOnChar_mem_isInfix (sep : Char) (l p : List Char)
    (hp : p ∈ splitOnChar sep l) : p <:+: l := by
  obtain ⟨h, t, hsplit, ⟨r, hr⟩, htail⟩ := splitOnChar_shape sep l
  rw [hsplit] at hp
  rcases List.mem_cons.mp hp with rfl | hmem
  · exact ⟨[], r, by simp [hr]⟩
  · exact htail p hmem

theorem strip_isInfix (l : List Char) : strip l <:+: l := by
  obtain ⟨s1, hs1⟩ := List.dropWhile_suffix (l := l) isSpaceChar
  obtain ⟨s2, hs2⟩ :=
    List.dropWhile_suffix (l := (l.dropWhile isSpaceChar).reverse) isSpaceChar
  refine ⟨s1, s2.reverse, ?_⟩
  rw [strip]
  have hrev := congrArg List.reverse hs2
  rw [List.reverse_append, List.reverse_reverse] at hrev
  rw [List.append_assoc, hrev, hs1]

theorem matchSegment_time_isInfix (seg dp tp : List Char)
    (h : matchSegment seg = some (dp, tp)) : tp <:+: seg := by
  unfold matchSegment at h
  split at h
  · exact absurd h (by simp)
  · split at h
    · exact absurd h (by simp)
    · split at h
      · rename_i prs rest heq
        rw [Option.some.injEq, Prod.mk.injEq] at h
        obtain ⟨hdp, htp⟩ := h
        obtain ⟨a, ha⟩ := List.dropWhile_suffix (l := seg) isDayChar
        obtain ⟨b, hb⟩ :=
          List.dropWhile_suffix (l := seg.dropWhile isDayChar) isSpaceChar
        rw [← htp]
        refine ⟨a ++ b, ((seg.dropWhile isDayChar).dropWhile isSpaceChar).drop
          (((seg.dropWhile isDayChar).dropWhile isSpaceChar).length - rest.length), ?_⟩
        rw [List.append_assoc, List.append_assoc, List.take_append_drop]
        rw [hb, ha]
      · exact absurd h (by simp)

theorem dailyMatch_eq_some (text : List Char) (st en : ℚ)
    (h : dailyMatch text = some (st, en)) :
    ∃ m, searchTime text = some m ∧ parse_time_range m = some (st, en) := by
  unfold dailyMatch at h
  split at h
  · split at h
    · rename_i m heq
      exact ⟨m, heq, h⟩
    · exact absurd h (by simp)
  · exact absurd h (by simp)

theorem applyDays_is_24_7 (hrs : ℚ) :
    ∀ (ds : List (List Char)) (r : HoursFeatureRecord),
      (applyDays hrs ds r).is_24_7 = r.is_24_7
  | [], _ => rfl
  | d :: ds, r => by
    simp only [applyDays]
    rw [applyDays_is_24_7 hrs ds]
    split_ifs <;> rfl

theorem processSegment_is_24_7 (r : HoursFeatureRecord) (seg : List Char) :
    (processSegment r seg).is_24_7 = r.is_24_7 := by
  unfold processSegment
  split
  · rfl
  · split
    · rfl
    · rw [applyDays_is_24_7]

theorem segLoop_is_24_7 :
    ∀ (segs : List (List Char)) (r : HoursFeatureRecord),
      (segLoop segs r).is_24_7 = r.is_24_7
  | [], _ => rfl
  | s :: ss, r => by
    rw [segLoop, segLoop_is_24_7 ss, processSegment_is_24_7]

theorem segmented_is_24_7 (text : List Char) : (segmented text).is_24_7 = false := by
  rw [segmented, segLoop_is_24_7]

theorem applyDays_nonneg (hrs : ℚ) (hh : 0 ≤ hrs) :
    ∀ (ds : List (List Char)) (r : HoursFeatureRecord),
      0 ≤ r.hours_on_week → 0 ≤ r.hours_on_weekend →
      0 ≤ (applyDays hrs ds r).hours_on_week ∧
        0 ≤ (applyDays hrs ds r).hours_on_weekend
  | [], _, hw, hwe => ⟨hw, hwe⟩
  | d :: ds, r, hw, hwe => by
    simp only [applyDays]
    split_ifs with h1 h2
    · exact applyDays_nonneg hrs hh ds _
        (by show 0 ≤ qadd r.hours_on_week hrs; rw [qadd_eq]; linarith) hwe
    · exact applyDays_nonneg hrs hh ds _ hw
        (by show 0 ≤ qadd r.hours_on_weekend hrs; rw [qadd_eq]; linarith)
    · exact applyDays_nonneg hrs hh ds _ hw hwe

theorem processSegment_nonneg (r : HoursFeatureRecord) (seg : List Char)
    (Hseg : ∀ dp tp st en, matchSegment (strip seg) = some (dp, tp) →
      parse_time_range tp = some (st, en) → st < 24)
    (hw : 0 ≤ r.hours_on_week) (hwe : 0 ≤ r.hours_on_weekend) :
    0 ≤ (processSegment r seg).hours_on_week ∧
      0 ≤ (processSegment r seg).hours_on_weekend := by
  unfold processSegment
  split
  · exact ⟨hw, hwe⟩
  · rename_i dp tp hm
    split
    · exact ⟨hw, hwe⟩
    · rename_i st en hp
      have h24 := Hseg dp tp st en hm hp
      have hlt := parse_time_range_start_lt tp st en hp h24
      have hh : 0 ≤ qsub en st := by rw [qsub_eq]; linarith
      exact applyDays_nonneg _ hh _ _ hw hwe

theorem segLoop_nonneg :
    ∀ (segs : List (List Char)) (r : HoursFeatureRecord),
      (∀ seg ∈ segs, ∀ dp tp st en, matchSegment (strip seg) = some (dp, tp) →
        parse_time_range tp = some (st, en) → st < 24) →
      0 ≤ r.hours_on_week → 0 ≤ r.hours_on_weekend →
      0 ≤ (segLoop segs r).hours_on_week ∧ 0 ≤ (segLoop segs r).hours_on_weekend
  | [], _, _, hw, hwe => ⟨hw, hwe⟩
  | s :: ss, r, H, hw, hwe => by
    rw [segLoop]
    have hps := processSegment_nonneg r s (H s (by simp)) hw hwe
    exact segLoop_nonneg ss _ (fun seg hseg => H seg (by simp [hseg])) hps.1 hps.2

/-! The claims. -/

/-- C1: evaluation of the code at the disputed near-24h inputs.  For
"ежедневно 00:00-23:59" the parsed range gives `end - start = 23 + 59/60`,
which is below the `23.99` threshold of src/parser.py line 238, so the code
returns `is_24_7 = false` — contradicting the claim, the spec, and the
function's own docstring (lines 165-168), which all list this input as
full-time.  "ежедневно 00:00-24:00" is classified full-time as claimed. -/
theorem c1_near24h_threshold_eval :
    (hoursParser (some "ежедневно 00:00-23:59")).is_24_7 = false ∧
    (hoursParser (some "ежедневно 00:00-24:00")).is_24_7 = true := by
  decide

/-- C2 counterexample: "30:00-01:00" matches the regex shape and is
accepted, but the returned pair is `(30, 25)` with `end < start`, refuting
`end > start` quantified over all accepted strings. -/
theorem c2_rollover_counterexample :
    parse_time_range ("30:00-01:00".toList) = some (30, 25) ∧
    ¬ ((30 : ℚ) < 25) := by
  decide

/-- C2 amended: for every string accepted by `parse_time_range` whose
parsed start lies below 24 (true of every in-range start hour field), the
returned pair satisfies `end > start`. -/
theorem c2_rollover_amended (s : List Char) (st en : ℚ)
    (hp : parse_time_range s = some (st, en)) (h24 : st < 24) : st < en :=
  parse_time_range_start_lt s st en hp h24

/-- C2 witness: the amended rollover invariant at "22:00-02:00". -/
theorem c2_rollover_amended_witness :
    parse_time_range ("22:00-02:00".toList) = some (22, 26) ∧ (22 : ℚ) < 26 :=
  ⟨by decide, c2_rollover_amended ("22:00-02:00".toList) 22 26 (by decide) (by decide)⟩

/-- C3 counterexample: on "пн 30:00-01:00" the segment parses to the
interval `(30, 25)`, contributing `25 - 30 = -5` hours, so the returned
record has `hours_on_week = -5 < 0`. -/
theorem c3_nonneg_counterexample :
    (hoursParser (some "пн 30:00-01:00")).hours_on_week < 0 := by
  decide

/-- C3 amended: for every input (string or null) in which every substring of
the normalized text accepted by `parse_time_range` parses with `start < 24`
(true of every in-range start hour field), the returned record satisfies
`hours_on_week ≥ 0` and `hours_on_weekend ≥ 0`. -/
theorem c3_nonneg_amended (inp : Option String)
    (H : ∀ s, inp = some s → ∀ m, m <:+: normalize s →
      ∀ st en, parse_time_range m = some (st, en) → st < 24) :
    0 ≤ (hoursParser inp).hours_on_week ∧
      0 ≤ (hoursParser inp).hours_on_weekend := by
  cases inp with
  | none => exact ⟨le_rfl, le_rfl⟩
  | some s =>
    have Hs := H s rfl
    simp only [hoursParser]
    by_cases hc : is_24_7_check (normalize s) = true
    · rw [if_pos hc]
      constructor
      · show (0 : ℚ) ≤ qmul 24 5
        rw [qmul_eq]
        norm_num
      · show (0 : ℚ) ≤ qmul 24 2
        rw [qmul_eq]
        norm_num
    · rw [if_neg hc]
      rcases hd : dailyMatch (normalize s) with _ | ⟨st, en⟩
      · simp only [hd]
        rw [segmented]
        apply segLoop_nonneg
        · intro seg hseg dp tp st en hm hp
          refine Hs tp ?_ st en hp
          exact ((matchSegment_time_isInfix _ _ _ hm).trans (strip_isInfix seg)).trans
            (splitOnChar_mem_isInfix ';' (normalize s) seg hseg)
        · exact le_rfl
        · exact le_rfl
      · simp only [hd]
        obtain ⟨m, hS, hP⟩ := dailyMatch_eq_some _ _ _ hd
        have h24 := Hs m (searchTime_isInfix _ m hS) st en hP
        have hlt := parse_time_range_start_lt m st en hP h24
        constructor
        · show (0 : ℚ) ≤ qmul (qsub en st) 5
          rw [qmul_eq, qsub_eq]
          exact mul_nonneg (by linarith) (by norm_num)
        · show (0 : ℚ) ≤ qmul (qsub en st) 2
          rw [qmul_eq, qsub_eq]
          exact mul_nonneg (by linarith) (by norm_num)

/-- C3 witness: the amended claim at the empty string, whose normalized text
has no substring accepted by `parse_time_range`. -/
theorem c3_nonneg_amended_witness :
    0 ≤ (hoursParser (some "")).hours_on_week ∧
      0 ≤ (hoursParser (some "")).hours_on_weekend :=
  c3_nonneg_amended (some "") (by
    intro s hs m hm st en hp
    rw [Option.some.injEq] at hs
    subst hs
    have hm0 : m = [] := by
      obtain ⟨a, b, hab⟩ := hm
      rw [show normalize "" = [] from rfl] at hab
      have h1 : a ++ m = [] ∧ b = [] := List.append_eq_nil.mp hab
      exact (List.append_eq_nil.mp h1.1).2
    subst hm0
    rw [show parse_time_range [] = none from rfl] at hp
    exact Option.noConfusion hp)

/-- C4: whenever the returned record has `is_24_7 = true`, the record is the
saturated one — all booleans true, `hours_on_week = 24 * 5 = 120`,
`hours_on_weekend = 24 * 2 = 48`. -/
theorem c4_saturated_on_24_7 (inp : Option String)
    (h : (hoursParser inp).is_24_7 = true) :
    hoursParser inp = ⟨true, true, true, true, true, 120, 48⟩ := by
  cases inp with
  | none => exact absurd h (by decide)
  | some s =>
    simp only [hoursParser] at h ⊢
    by_cases hc : is_24_7_check (normalize s) = true
    · rw [if_pos hc]
      have h5 : qmul 24 5 = (120 : ℚ) := by
        rw [qmul_eq]
        norm_num
      have h2 : qmul 24 2 = (48 : ℚ) := by
        rw [qmul_eq]
        norm_num
      rw [h5, h2]
    · rw [if_neg hc] at h
      rcases hd : dailyMatch (normalize s) with _ | ⟨st, en⟩
      · rw [hd] at h
        simp only at h
        rw [segmented_is_24_7] at h
        exact absurd h (by simp)
      · rw [hd] at h
        simp only at h
        exact absurd h (by simp)

/-- C4 witness: the saturated record at "ежедневно, круглосуточно". -/
theorem c4_saturated_on_24_7_witness :
    hoursParser (some "ежедневно, круглосуточно") =
      ⟨true, true, true, true, true, 120, 48⟩ :=
  c4_saturated_on_24_7 (some "ежедневно, круглосуточно") (by decide)

/-- C5: on "пн-пт 09:00-18:00; сб,вс 10:00-16:00" each matching segment
contributes its full duration once per covered day: five weekdays at 9 hours
give `hours_on_week = 45`, two weekend days at 6 hours give
`hours_on_weekend = 12`, with `on_week`, `on_weekend`, `is_day` true and
`is_night`, `is_24_7` false. -/
theorem c5_segmented_example :
    hoursParser (some "пн-пт 09:00-18:00; сб,вс 10:00-16:00") =
      ⟨false, false, true, true, true, 45, 12⟩ := by
  decide

/-- C6 counterexample: the code tests the key phrase without the trailing
colon, so "цена бокала пива 150" — which does not contain
"цена бокала пива:" — still returns a value, refuting the claim as
stated. -/
theorem c6_keyphrase_counterexample :
    containsSub ("цена бокала пива:".toList)
      (strip ("цена бокала пива 150".toList.map toLowerChar)) = false ∧
    parse_middle_beer_cup (some "цена бокала пива 150") = some 150 := by
  decide

/-- C6 amended: `parse_middle_beer_cup` returns no value for null input or
when the lower-cased, stripped text lacks the key phrase
"цена бокала пива" (without a trailing colon); otherwise it returns no
value for zero digit-runs, the single number for one digit-run, and the
arithmetic mean of the first two numbers for two or more digit-runs,
ignoring the rest; in particular "цена бокала пива: 150" gives 150 and
"цена бокала пива: 100-200" gives 150. -/
theorem c6_beer_price_amended :
    parse_middle_beer_cup none = none ∧
    (∀ v : String,
      containsSub ("цена бокала пива".toList)
        (strip (v.toList.map toLowerChar)) = false →
      parse_middle_beer_cup (some v) = none) ∧
    (∀ v : String,
      containsSub ("цена бокала пива".toList)
        (strip (v.toList.map toLowerChar)) = true →
      findAllNat (strip (v.toList.map toLowerChar)) = [] →
      parse_middle_beer_cup (some v) = none) ∧
    (∀ (v : String) (n : Nat),
      containsSub ("цена бокала пива".toList)
        (strip (v.toList.map toLowerChar)) = true →
      findAllNat (strip (v.toList.map toLowerChar)) = [n] →
      parse_middle_beer_cup (some v) = some (n : ℚ)) ∧
    (∀ (v : String) (n m : Nat) (rest : List Nat),
      containsSub ("цена бокала пива".toList)
        (strip (v.toList.map toLowerChar)) = true →
      findAllNat (strip (v.toList.map toLowerChar)) = n :: m :: rest →
      parse_middle_beer_cup (some v) = some (((n : ℚ) + (m : ℚ)) / 2)) ∧
    parse_middle_beer_cup (some "цена бокала пива: 150") = some 150 ∧
    parse_middle_beer_cup (some "цена бокала пива: 100-200") = some 150 := by
  refine ⟨rfl, ?_, ?_, ?_, ?_, by decide, by decide⟩
  · intro v hfalse
    rw [parse_middle_beer_cup_some, hfalse]
    simp
  · intro v htrue hnil
    rw [parse_middle_beer_cup_some, htrue, hnil]
    simp
  · intro v n htrue hone
    rw [parse_middle_beer_cup_some, htrue, hone]
    simp
  · intro v n m rest htrue htwo
    rw [parse_middle_beer_cup_some, htrue, htwo]
    simp only [if_true]
    show some (mkRat ((n + m : Nat) : Int) 2) = some (((n : ℚ) + (m : ℚ)) / 2)
    rw [Option.some.injEq, Rat.mkRat_eq_div]
    push_cast
    ring

/-- C6 witness: the amended one-number case at "цена бокала пива: 777". -/
theorem c6_beer_price_amended_witness :
    parse_middle_beer_cup (some "цена бокала пива: 777") = some ((777 : Nat) : ℚ) :=
  c6_beer_price_amended.2.2.2.1 "цена бокала пива: 777" 777 (by decide) (by decide)

/-- C7: for every range token built from two valid day tokens,
`expand_days` returns exactly the days whose index in the fixed order
`[пн,вт,ср,чт,пт,сб,вс]` lies between the two endpoints' indices — the
contiguous inclusive slice when the first index is at most the second, and
the empty set for a wrap-around range. -/
theorem c7_expand_days_range :
    ∀ d1 ∈ order, ∀ d2 ∈ order,
      expand_days (d1 ++ '-' :: d2) =
        order.filter (fun d =>
          decide (order.indexOf d1 ≤ order.indexOf d ∧
            order.indexOf d ≤ order.indexOf d2)) := by
  decide

/-- C7 witness: the range theorem at "пн-пт". -/
theorem c7_expand_days_range_witness :
    expand_days ("пн".toList ++ '-' :: "пт".toList) =
      order.filter (fun d =>
        decide (order.indexOf ("пн".toList) ≤ order.indexOf d ∧
          order.indexOf d ≤ order.indexOf ("пт".toList))) :=
  c7_expand_days_range ("пн".toList) (by decide) ("пт".toList) (by decide)

/-- C8: every interval with `0 ≤ start < 24` that rolled over past midnight
(`end > 24`) intersects the night window, via the `[22, 24)` leg alone — no
wraparound logic is involved. -/
theorem c8_night_rollover (st en : ℚ) (_h0 : 0 ≤ st) (h24 : st < 24)
    (hen : 24 < en) : intersects_night st en = true := by
  rw [intersects_night, Bool.or_eq_true]
  left
  rw [qltb_iff, qmax_eq, qmin_eq]
  exact max_lt (lt_min (by linarith) (by linarith))
    (lt_min (by linarith) (by norm_num))

/-- C8 witness: the night-rollover property at the interval `(10, 25)`. -/
theorem c8_night_rollover_witness : intersects_night 10 25 = true :=
  c8_night_rollover 10 25 (by norm_num) (by norm_num) (by norm_num)

/-- C9: null input returns the all-false, all-zero record (the function is
total, so no error can be raised). -/
theorem c9_null_input :
    hoursParser none = ⟨false, false, false, false, false, 0, 0⟩ := rfl

/-- C10: on "сб-пн 10:00-18:00" the wrap-around day range expands to the
empty set, yet the segment's parsed time range still switches `is_day` on,
so the record has `is_day = true` with `on_week`, `on_weekend` false and
both hour totals zero. -/
theorem c10_empty_dayset_flags :
    expand_days ("сб-пн".toList) = [] ∧
    hoursParser (some "сб-пн 10:00-18:00") =
      ⟨false, false, true, false, false, 0, 0⟩ := by
  decide

end MskFood
